import Mathlib

/-!
# Verification of the archmage CHM module

A shallow embedding of `src/archmage/CHM.py` (the CHM decompressor's core
module) together with theorems settling the specification claims about it.

Modelling conventions:
* Byte strings (Python `bytes`) are lists of characters, one `Char` per byte;
  the `latin-1` decoding used by the source maps byte k to code point k and is
  the identity under this model.
* Python functions that can raise are modelled with `Except String`, the
  error string naming the exception class raised.
* The fixed byte regexps of the source are compiled, pattern by pattern, into
  structural matchers with Python's leftmost / greedy / backtracking
  semantics (`.` never matches a newline; `(?i)` is ASCII case folding).
-/

namespace Archmage

/-- Byte strings (Python `bytes`), one `Char` per byte. -/
abbrev Bytes := List Char

/-- ASCII lower-casing of one byte, as performed by Python `bytes.lower()`
and by `(?i)` matching on byte regexps: bytes 65-90 map to 97-122. -/
def lowerC (c : Char) : Char :=
  if 65 ≤ c.toNat ∧ c.toNat ≤ 90 then Char.ofNat (c.toNat + 32) else c

/-- `bytes.lower()` on a whole byte string. -/
def lowerS (l : Bytes) : Bytes := l.map lowerC

theorem toNat_ofNat_valid (n : Nat) (h : n < 55296) : (Char.ofNat n).toNat = n := by
  have hv : n.isValidChar := Or.inl h
  rw [Char.ofNat, dif_pos hv]
  rfl

theorem char_toNat_inj {a b : Char} (h : a.toNat = b.toNat) : a = b := by
  have h2 := congrArg Char.ofNat h
  simpa using h2

theorem lowerC_toNat (c : Char) :
    (lowerC c).toNat =
      if 65 ≤ c.toNat ∧ c.toNat ≤ 90 then c.toNat + 32 else c.toNat := by
  unfold lowerC
  by_cases h : 65 ≤ c.toNat ∧ c.toNat ≤ 90
  · rw [if_pos h, if_pos h, toNat_ofNat_valid]
    omega
  · rw [if_neg h, if_neg h]

theorem lowerC_idem (c : Char) : lowerC (lowerC c) = lowerC c := by
  apply char_toNat_inj
  rw [lowerC_toNat, lowerC_toNat c]
  by_cases h : 65 ≤ c.toNat ∧ c.toNat ≤ 90
  · rw [if_pos h, if_neg (by omega)]
  · rw [if_neg h, if_neg h]

theorem lowerS_idem (l : Bytes) : lowerS (lowerS l) = lowerS l := by
  unfold lowerS
  rw [List.map_map]
  apply List.map_congr_left
  intro c _
  exact lowerC_idem c

theorem lowerS_length (l : Bytes) : (lowerS l).length = l.length := by
  simp [lowerS]

/-- A character is untouched by ASCII lower-casing iff it is not an ASCII
upper-case letter. -/
theorem lowerC_eq_self_iff (c : Char) :
    lowerC c = c ↔ ¬(65 ≤ c.toNat ∧ c.toNat ≤ 90) := by
  constructor
  · intro h hu
    have := congrArg Char.toNat h
    rw [lowerC_toNat, if_pos hu] at this
    omega
  · intro h
    apply char_toNat_inj
    rw [lowerC_toNat, if_neg h]

/-- Low code points (below 65) are fixed by `lowerC`; this covers all the
punctuation bytes the matchers test for. -/
theorem lowerC_eq_low_iff (c : Char) (t : Char) (ht : t.toNat < 65) :
    lowerC c = t ↔ c = t := by
  constructor
  · intro h
    have h2 := congrArg Char.toNat h
    rw [lowerC_toNat] at h2
    by_cases hu : 65 ≤ c.toNat ∧ c.toNat ≤ 90
    · rw [if_pos hu] at h2; omega
    · rw [if_neg hu] at h2; exact char_toNat_inj h2
  · intro h
    subst h
    rw [lowerC_eq_self_iff]
    omega

/-- Python byte-regexp class `\s`: space, tab, newline, carriage return,
vertical tab, form feed. -/
def isWS (c : Char) : Bool :=
  decide (c.toNat = 32 ∨ c.toNat = 9 ∨ c.toNat = 10 ∨ c.toNat = 13 ∨
          c.toNat = 11 ∨ c.toNat = 12)

/-- The attribute-value class `[^\s|>]` of lower_links' pattern. -/
def isTok (c : Char) : Bool :=
  decide (¬(c.toNat = 32 ∨ c.toNat = 9 ∨ c.toNat = 10 ∨ c.toNat = 13 ∨
            c.toNat = 11 ∨ c.toNat = 12) ∧ c.toNat ≠ 124 ∧ c.toNat ≠ 62)

/-- Continuation of the lower_links pattern after the matched keyword
(`href` or `src`, `k` bytes long): `\s*=\s*([^\s|>]+)`, with the star
semantics of Python's engine (a maximal whitespace run must be followed by
`=`; the token run is maximal and non-empty).  Returns the full match
length. -/
def matchAfterKw (k : Nat) (L : Bytes) : Option Nat :=
  let rest1 := L.drop k
  let w1 := (rest1.takeWhile isWS).length
  match rest1.drop w1 with
  | [] => none
  | c :: rest2 =>
    if c = '=' then
      let w2 := (rest2.takeWhile isWS).length
      let tok := ((rest2.drop w2).takeWhile isTok).length
      if tok = 0 then none else some (k + w1 + 1 + w2 + tok)
    else none

/-- Match of `(href|src)\s*=\s*([^\s|>]+)` at the head of an already
case-folded input; the `(?i)` flag of lower_links' pattern is modelled by
folding the input with `lowerS` before this structural match (`matchAt`). -/
def matchAtL (L : Bytes) : Option Nat :=
  if List.isPrefixOf ['h', 'r', 'e', 'f'] L then matchAfterKw 4 L
  else if List.isPrefixOf ['s', 'r', 'c'] L then matchAfterKw 3 L
  else none

/-- Leftmost match of lower_links' pattern `(?i)(href|src)\s*=\s*([^\s|>]+)`
starting exactly at the head of `l`. -/
def matchAt (l : Bytes) : Option Nat := matchAtL (lowerS l)

theorem matchAfterKw_bounds {k : Nat} {L : Bytes} {n : Nat} (hk : k ≤ L.length)
    (h : matchAfterKw k L = some n) : 1 ≤ n ∧ n ≤ L.length := by
  simp only [matchAfterKw] at h
  split at h
  · exact absurd h (by simp)
  · next c rest2 heq =>
    split at h
    · split at h
      · exact absurd h (by simp)
      · next htok =>
        have hn := Option.some.inj h
        have h1 : (List.drop k L).length = L.length - k := List.length_drop k L
        have hw1 : ((List.drop k L).takeWhile isWS).length ≤ (List.drop k L).length :=
          (List.takeWhile_prefix _).length_le
        have h2 := congrArg List.length heq
        rw [List.length_drop] at h2
        simp only [List.length_cons] at h2
        have hw2 : (rest2.takeWhile isWS).length ≤ rest2.length :=
          (List.takeWhile_prefix _).length_le
        have htok2 : ((rest2.drop (rest2.takeWhile isWS).length).takeWhile isTok).length ≤
            (rest2.drop (rest2.takeWhile isWS).length).length :=
          (List.takeWhile_prefix _).length_le
        rw [List.length_drop] at htok2
        omega
    · exact absurd h (by simp)

theorem matchAtL_bounds {L : Bytes} {n : Nat} (h : matchAtL L = some n) :
    1 ≤ n ∧ n ≤ L.length := by
  simp only [matchAtL] at h
  split at h
  · next hp =>
    have hlen : 4 ≤ L.length := by
      have := (List.isPrefixOf_iff_prefix.mp hp).length_le
      simpa using this
    exact matchAfterKw_bounds hlen h
  · split at h
    · next hp =>
      have hlen : 3 ≤ L.length := by
        have := (List.isPrefixOf_iff_prefix.mp hp).length_le
        simpa using this
      exact matchAfterKw_bounds hlen h
    · exact absurd h (by simp)

theorem matchAt_bounds {l : Bytes} {n : Nat} (h : matchAt l = some n) :
    1 ≤ n ∧ n ≤ l.length := by
  have hb := matchAtL_bounds h
  rwa [lowerS_length] at hb

/-- `Entry.lower_links`: lower-case every `href=`/`src=` attribute value,
i.e. replace every (leftmost, non-overlapping) match of
`(?i)(href|src)\s*=\s*([^\s|>]+)` by its lower-cased self. -/
def lower_links (l : Bytes) : Bytes :=
  match l with
  | [] => []
  | c :: rest =>
    match h : matchAt (c :: rest) with
    | some n => lowerS ((c :: rest).take n) ++ lower_links ((c :: rest).drop n)
    | none => c :: lower_links rest
termination_by l.length
decreasing_by
  · have hb := matchAt_bounds h
    simp only [List.length_drop]
    simp only [List.length_cons] at hb ⊢
    omega
  · simp

theorem lower_links_nil : lower_links [] = [] := by
  simp [lower_links]

theorem lower_links_cons_some {c : Char} {rest : Bytes} {n : Nat}
    (h : matchAt (c :: rest) = some n) :
    lower_links (c :: rest) =
      lowerS ((c :: rest).take n) ++ lower_links ((c :: rest).drop n) := by
  rw [lower_links]
  split
  · next m hm => rw [h] at hm; cases hm; rfl
  · next hm => rw [h] at hm; cases hm

theorem lower_links_cons_none {c : Char} {rest : Bytes}
    (h : matchAt (c :: rest) = none) :
    lower_links (c :: rest) = c :: lower_links rest := by
  rw [lower_links]
  split
  · next m hm => rw [h] at hm; cases hm
  · rfl

theorem lower_links_eq_some {l : Bytes} {n : Nat} (hl : l ≠ [])
    (h : matchAt l = some n) :
    lower_links l = lowerS (l.take n) ++ lower_links (l.drop n) := by
  cases l with
  | nil => exact absurd rfl hl
  | cons c rest => exact lower_links_cons_some h

/-- lower_links only changes the case of characters: its output case-folds
to the same string as its input. -/
theorem lowerS_lower_links (l : Bytes) : lowerS (lower_links l) = lowerS l := by
  induction l using lower_links.induct with
  | case1 => simp [lower_links_nil]
  | case2 c rest n h ih =>
    rw [lower_links_cons_some h]
    unfold lowerS at ih ⊢
    rw [List.map_append, ih, List.map_map]
    have hmm : List.map (lowerC ∘ lowerC) ((c :: rest).take n) =
        List.map lowerC ((c :: rest).take n) := by
      apply List.map_congr_left
      intro x _
      exact lowerC_idem x
    rw [hmm, ← List.map_append, List.take_append_drop]
  | case3 c rest h ih =>
    rw [lower_links_cons_none h]
    unfold lowerS at ih ⊢
    simp only [List.map_cons, ih]

theorem lower_links_length (l : Bytes) : (lower_links l).length = l.length := by
  have h := congrArg List.length (lowerS_lower_links l)
  rwa [lowerS_length, lowerS_length] at h

theorem lowerS_append (a b : Bytes) : lowerS (a ++ b) = lowerS a ++ lowerS b :=
  List.map_append lowerC a b

theorem lower_links_idem (l : Bytes) :
    lower_links (lower_links l) = lower_links l := by
  induction l using lower_links.induct with
  | case1 => simp [lower_links_nil]
  | case2 c rest n h ih =>
    rw [lower_links_cons_some h]
    have hb := matchAt_bounds h
    have hAlen : (lowerS ((c :: rest).take n)).length = n := by
      rw [lowerS_length, List.length_take]
      omega
    have hfold :
        lowerS (lowerS ((c :: rest).take n) ++ lower_links ((c :: rest).drop n)) =
          lowerS (c :: rest) := by
      rw [lowerS_append, lowerS_idem, lowerS_lower_links, ← lowerS_append,
        List.take_append_drop]
    have hm2 :
        matchAt (lowerS ((c :: rest).take n) ++ lower_links ((c :: rest).drop n)) =
          some n := by
      unfold matchAt
      rw [hfold]
      exact h
    have hne :
        lowerS ((c :: rest).take n) ++ lower_links ((c :: rest).drop n) ≠ [] := by
      intro hh
      have hlen := congrArg List.length hh
      rw [List.length_append, hAlen] at hlen
      simp at hlen
      omega
    rw [lower_links_eq_some hne hm2]
    have htake :=
      List.take_left (lowerS ((c :: rest).take n)) (lower_links ((c :: rest).drop n))
    have hdrop :=
      List.drop_left (lowerS ((c :: rest).take n)) (lower_links ((c :: rest).drop n))
    rw [hAlen] at htake hdrop
    rw [htake, hdrop, lowerS_idem, ih]
  | case3 c rest h ih =>
    rw [lower_links_cons_none h]
    have hm : matchAt (c :: lower_links rest) = none := by
      unfold matchAt
      have heq : lowerS (c :: lower_links rest) = lowerS (c :: rest) := by
        unfold lowerS
        simp only [List.map_cons]
        rw [show List.map lowerC (lower_links rest) = lowerS rest from
          lowerS_lower_links rest]
        rfl
      rw [heq]
      exact h
    rw [lower_links_cons_none hm, ih]

/-! ## A small compiled form for the fixed byte regexps of `Entry.correct`,
`Entry.get` and `Entry.add_restoreframing_js`.

Each of those patterns is a sequence of literals and starred character
classes; `Item` is that shape, and `matchItems` performs Python's
backtracking match (stars are greedy, tried longest first; `.` never
matches a newline). -/

/-- One piece of a compiled pattern: a literal byte string, a
case-insensitively matched literal (for `(?i)` parts, given lower-cased),
or a greedy starred character class. -/
inductive Item where
  | lit (s : Bytes)
  | litCI (s : Bytes)
  | star (p : Char → Bool)

/-- Greedy backtracking for a trailing `p*`: try the longest repetition
first (`k` repetitions, `k` counted down), then shorter ones, where `f`
matches the rest of the pattern. -/
def starSearch (f : Bytes → Option Nat) (l : Bytes) : Nat → Option Nat
  | 0 =>
    match f l with
    | some n => some n
    | none => none
  | k + 1 =>
    match f (l.drop (k + 1)) with
    | some n => some (k + 1 + n)
    | none => starSearch f l k

/-- Length of the (backtracking-preferred) match of a compiled pattern at
the head of `l`, if any. -/
def matchItems : List Item → Bytes → Option Nat
  | [], _ => some 0
  | Item.lit s :: rest, l =>
    if s.isPrefixOf l then (matchItems rest (l.drop s.length)).map (fun n => s.length + n)
    else none
  | Item.litCI s :: rest, l =>
    if lowerS (l.take s.length) = s then
      (matchItems rest (l.drop s.length)).map (fun n => s.length + n)
    else none
  | Item.star p :: rest, l => starSearch (matchItems rest) l ((l.takeWhile p).length)

theorem starSearch_le {f : Bytes → Option Nat}
    (hf : ∀ t m, f t = some m → m ≤ t.length) (l : Bytes) :
    ∀ k n, k ≤ l.length → starSearch f l k = some n → n ≤ l.length := by
  intro k
  induction k with
  | zero =>
    intro n _ h
    simp only [starSearch] at h
    split at h
    · next m hm =>
      cases h
      exact hf l n hm
    · cases h
  | succ k ih =>
    intro n hk h
    simp only [starSearch] at h
    split at h
    · next m hm =>
      cases h
      have := hf _ _ hm
      rw [List.length_drop] at this
      omega
    · exact ih n (by omega) h

theorem matchItems_le :
    ∀ (items : List Item) (l : Bytes) (n : Nat), matchItems items l = some n → n ≤ l.length := by
  intro items
  induction items with
  | nil =>
    intro l n h
    cases h
    simp
  | cons it rest ih =>
    intro l n h
    cases it with
    | lit s =>
      simp only [matchItems] at h
      split at h
      · next hp =>
        have hs : s.length ≤ l.length := by
          have := (List.isPrefixOf_iff_prefix.mp hp).length_le
          exact this
        cases hm : matchItems rest (l.drop s.length) with
        | none => rw [hm] at h; cases h
        | some m =>
          rw [hm] at h
          have hn : s.length + m = n := by simpa using h
          have := ih _ _ hm
          rw [List.length_drop] at this
          omega
      · cases h
    | litCI s =>
      simp only [matchItems] at h
      split at h
      · next hp =>
        have hs : s.length ≤ l.length := by
          have hlen := congrArg List.length hp
          rw [lowerS_length, List.length_take] at hlen
          omega
        cases hm : matchItems rest (l.drop s.length) with
        | none => rw [hm] at h; cases h
        | some m =>
          rw [hm] at h
          have hn : s.length + m = n := by simpa using h
          have := ih _ _ hm
          rw [List.length_drop] at this
          omega
      · cases h
    | star p =>
      simp only [matchItems] at h
      exact starSearch_le (fun t m hm => ih t m hm) l _ n
        (List.takeWhile_prefix p).length_le h

/-- `re.sub(pattern, repl, data)` for a compiled pattern: scan left to
right, replace each leftmost non-overlapping match by `repl`.  (None of
the patterns compiled in this file can match the empty string; a
hypothetical zero-width match is skipped.) -/
def subAll (items : List Item) (repl : Bytes) : Bytes → Bytes
  | [] => []
  | c :: rest =>
    match h : matchItems items (c :: rest) with
    | some n =>
      if n = 0 then c :: subAll items repl rest
      else repl ++ subAll items repl ((c :: rest).drop n)
    | none => c :: subAll items repl rest
termination_by l => l.length
decreasing_by
  · simp
  · have hle := matchItems_le items _ n h
    simp only [List.length_drop]
    simp only [List.length_cons] at hle ⊢
    omega
  · simp

/-- `.` in a Python byte regexp: any byte except newline. -/
def notNL (c : Char) : Bool := decide (c.toNat ≠ 10)

/-- `[^>]` -/
def notGT (c : Char) : Bool := decide (c.toNat ≠ 62)

/-- `[^"]` -/
def notQuot (c : Char) : Bool := decide (c.toNat ≠ 34)

/-- `<div .*teamlib\.gif.*\/div>` -/
def pDivTeamlib : List Item :=
  [Item.lit "<div ".data, Item.star notNL, Item.lit "teamlib.gif".data,
   Item.star notNL, Item.lit "/div>".data]

/-- `<a href.*>\[ Team LiB \]<\/a>` -/
def pTeamLiB : List Item :=
  [Item.lit "<a href".data, Item.star notNL, Item.lit ">[ Team LiB ]</a>".data]

/-- `<table.*larrow\.gif.*rarrow\.gif.*<\/table>` -/
def pTableArrows : List Item :=
  [Item.lit "<table".data, Item.star notNL, Item.lit "larrow.gif".data,
   Item.star notNL, Item.lit "rarrow.gif".data, Item.star notNL,
   Item.lit "</table>".data]

/-- `<a href.*next\.gif[^>]*><\/a>` -/
def pANext : List Item :=
  [Item.lit "<a href".data, Item.star notNL, Item.lit "next.gif".data,
   Item.star notGT, Item.lit "></a>".data]

/-- `<a href.*previous\.gif[^>]*><\/a>` -/
def pAPrevious : List Item :=
  [Item.lit "<a href".data, Item.star notNL, Item.lit "previous.gif".data,
   Item.star notGT, Item.lit "></a>".data]

/-- `<a href.*prev\.gif[^>]*><\/a>` -/
def pAPrev : List Item :=
  [Item.lit "<a href".data, Item.star notNL, Item.lit "prev.gif".data,
   Item.star notGT, Item.lit "></a>".data]

/-- `"[^"]*previous\.gif"` -/
def pQuotPrevious : List Item :=
  [Item.lit ['"'], Item.star notQuot, Item.lit "previous.gif\"".data]

/-- `"[^"]*prev\.gif"` -/
def pQuotPrev : List Item :=
  [Item.lit ['"'], Item.star notQuot, Item.lit "prev.gif\"".data]

/-- `"[^"]*next\.gif"` -/
def pQuotNext : List Item :=
  [Item.lit ['"'], Item.star notQuot, Item.lit "next.gif\"".data]

/-- The replacement `b'""'`. -/
def quot2 : Bytes := ['"', '"']

/-- The nine "Delete unwanted HTML elements" substitutions of
`Entry.correct`, applied in source order. -/
def stripChrome (d : Bytes) : Bytes :=
  subAll pQuotNext quot2 (subAll pQuotPrev quot2 (subAll pQuotPrevious quot2
    (subAll pAPrev [] (subAll pAPrevious [] (subAll pANext []
      (subAll pTableArrows [] (subAll pTeamLiB [] (subAll pDivTeamlib [] d))))))))

/-- `re.sub("/+", "/", name)`: collapse every run of slashes to one. -/
def collapseSlashes : Bytes → Bytes
  | [] => []
  | c :: rest =>
    if c = '/' then '/' :: collapseSlashes (rest.dropWhile (fun x => decide (x = '/')))
    else c :: collapseSlashes rest
termination_by l => l.length
decreasing_by
  · have hsfx : rest.dropWhile (fun x => decide (x = '/')) <:+ rest :=
      List.dropWhile_suffix _
    have := hsfx.length_le
    simp only [List.length_cons]
    omega
  · simp

/-- `os.path.basename`: the part after the last slash. -/
def basename (l : Bytes) : Bytes :=
  (l.reverse.takeWhile (fun c => decide (c ≠ '/'))).reverse

/-- The literal JavaScript snippet of `add_restoreframing_js`, with its
three `%s` holes filled: `b"../" * depth`, the frontpage name, and the
page's own (slash-collapsed) name. -/
def jsSnippet (depth : Nat) (frontpage name : Bytes) : Bytes :=
  "<body><script language=\"javascript\">\nif (window.name != \"content\")\n    document.write(\"<center><a href='".data ++
    (List.replicate depth "../".data).flatten ++ frontpage ++ "?page=".data ++ name ++
    "'>show framing</a></center>\")\n</script>".data

/-- `(?i)<\s*body\s*>` -/
def pBody : List Item :=
  [Item.lit ['<'], Item.star isWS, Item.litCI "body".data, Item.star isWS,
   Item.lit ['>']]

/-- `Entry.add_restoreframing_js(name, text)`: collapse slash runs in the
name, count the folder depth, and replace every `(?i)<\s*body\s*>` by the
navigation snippet. -/
def add_restoreframing_js (name frontpage text : Bytes) : Bytes :=
  let name2 := collapseSlashes name
  let depth := name2.count '/'
  subAll pBody (jsSnippet depth frontpage name2) text

/-- `re.search("(?i)\.html?$", name)`: the entry name ends in `.htm` or
`.html`, case-insensitively. -/
def isHtmlName (name : Bytes) : Bool :=
  List.isSuffixOf ".htm".data (lowerS name) || List.isSuffixOf ".html".data (lowerS name)

/-! ## Sources and entries -/

/-- `FileSource.get`: resolve the object, then retrieve it; an unresolved
name or a retrieval of size 0 both yield `None`.  The archive itself is
modelled as a partial map from entry names to their stored contents
(resolution failure = `none`). -/
def FileSource.get (archive : Bytes → Option Bytes) (name : Bytes) : Option Bytes :=
  match archive name with
  | none => none
  | some content => if content.length = 0 then none else some content

/-- `DirSource.get`: `open(self.dirname + filename, "rb")` followed by
`fh.read()`.  The filesystem is modelled as a partial map from paths to
contents; `open` on an absent path raises `FileNotFoundError` (the
`if fh is None` guard in the source is dead code, since `open` never
returns `None`). -/
def DirSource.get (fs : Bytes → Option Bytes) (dirname name : Bytes) :
    Except String Bytes :=
  match fs (dirname ++ name) with
  | none => Except.error "FileNotFoundError"
  | some content => Except.ok content

/-- The two duck-typed sources of the module.  `get` answers
`Except.ok none` for "absent" (`FileSource` returns `None`),
`Except.error` for a raised exception (`DirSource` on a missing file). -/
inductive Source where
  | file (archive : Bytes → Option Bytes)
  | dir (fs : Bytes → Option Bytes) (dirname : Bytes)

def Source.get : Source → Bytes → Except String (Option Bytes)
  | Source.file archive, name => Except.ok (FileSource.get archive name)
  | Source.dir fs dirname, name => (DirSource.get fs dirname name).map some

/-- An `Entry`: one named object of a source plus the option flags.  As in
`Entry.__init__`, the stored frontpage is `os.path.basename` of the one
passed in. -/
structure Entry where
  source : Source
  name : Bytes
  filename_case : Bool
  restore_framing : Bool
  frontpage : Bytes

def Entry.make (source : Source) (name : Bytes)
    (filename_case restore_framing : Bool) (frontpage : Bytes) : Entry :=
  ⟨source, name, filename_case, restore_framing, basename frontpage⟩

def Entry.read (e : Entry) : Except String (Option Bytes) :=
  e.source.get e.name

/-- `Entry.correct()`: for `.htm(l)` names with present data, optionally
lower-case links, then delete the vendor-chrome elements; absent data
yields `b""`. -/
def Entry.correct (e : Entry) : Except String Bytes :=
  match e.read with
  | Except.error m => Except.error m
  | Except.ok none => Except.ok []
  | Except.ok (some d) =>
    Except.ok
      (if isHtmlName e.name then
        stripChrome (if e.filename_case then lower_links d else d)
      else d)

/-- `Entry.get()`: for `.htm(l)` names with present data, optionally
lower-case links, then optionally inject the restore-framing snippet
(using `self.name[1:]`); absent data yields `b""`. -/
def Entry.get (e : Entry) : Except String Bytes :=
  match e.read with
  | Except.error m => Except.error m
  | Except.ok none => Except.ok []
  | Except.ok (some d) =>
    Except.ok
      (if isHtmlName e.name then
        (let d1 := if e.filename_case then lower_links d else d
         if e.restore_framing then
           add_restoreframing_js (e.name.drop 1) e.frontpage d1
         else d1)
      else d)

/-! ## Extraction -/

/-- `(/|\\|$)` after a `..`: a separator or the end of the string. -/
def isSep (c : Char) : Bool := decide (c = '/' ∨ c = '\\')

/-- Does `..(/|\\|$)` match right here? -/
def ddAt : Bytes → Bool
  | '.' :: '.' :: [] => true
  | '.' :: '.' :: c :: _ => isSep c
  | _ => false

def parentSearchAux : Bytes → Bool
  | [] => false
  | c :: rest => (isSep c && ddAt rest) || parentSearchAux rest

/-- `PARENT_RE.search(e)` for `PARENT_RE = (^|/|\\)\.\.(/|\\|$)`. -/
def PARENT_RE_search (l : Bytes) : Bool := ddAt l || parentSearchAux l

/-- `re.match(self.aux_re, e)` where `aux_re = "|".join(re.escape(s) for s
in auxes)`: some auxiliary string is a literal prefix of `e` (and the empty
pattern, from an empty `auxes`, matches everything). -/
def auxMatch (auxes : List Bytes) (e : Bytes) : Bool :=
  auxes.isEmpty || auxes.any (fun a => a.isPrefixOf e)

/-- `str.replace("/", "", 1)`: remove the first slash, wherever it is. -/
def removeFirstSlash : Bytes → Bytes
  | [] => []
  | c :: rest => if c = '/' then rest else c :: removeFirstSlash rest

/-- The on-disk name `extract_entry` writes for an output name:
`output_file.lower().replace("/", "", 1)`. -/
def outName (s : Bytes) : Bytes := removeFirstSlash (lowerS s)

/-- `CHM.extract_entries(entries)`, abstracting the filesystem: returns the
list of file names written (in order, via `extract_entry`) and, if a
malicious name was hit, the `RuntimeError` message raised there (writing
stops at that point).  Auxiliary entries are skipped first; then the
parent-traversal check runs. -/
def extract_entries (auxes : List Bytes) : List Bytes → List Bytes × Option Bytes
  | [] => ([], none)
  | e :: rest =>
    if auxMatch auxes e then extract_entries auxes rest
    else if PARENT_RE_search e then
      ([], some ("Giving up on malicious name: ".data ++ e))
    else
      let r := extract_entries auxes rest
      (outName e :: r.1, r.2)

/-! ## Frontpage, deftopic, toclevels, topics lookup -/

/-- The scan loop of `CHM._frontpage`: one pass over the entries; each time
the current candidate equals the entry under scan, bump to
`/index<index>.html` and increment the counter. -/
def frontpageLoop : List Bytes → Bytes → Nat → Bytes
  | [], fp, _ => fp
  | f :: rest, fp, index =>
    if fp = f then
      frontpageLoop rest ("/index".data ++ (Nat.repr index).data ++ ".html".data)
        (index + 1)
    else frontpageLoop rest fp index

/-- `CHM._frontpage()`: start from `/index.html` with counter 2. -/
def _frontpage (entries : List Bytes) : Bytes :=
  frontpageLoop entries "/index.html".data 2

/-- `CHM._deftopic()`: `html_files()[0]` (an `IndexError` on an empty page
list), with a leading slash removed and lower-cased. -/
def _deftopic : List Bytes → Except String Bytes
  | [] => Except.error "IndexError: list index out of range"
  | f :: _ =>
    Except.ok
      (if f.head? = some '/' then lowerS (removeFirstSlash f) else lowerS f)

/-- `CHM._toclevels()`' clipping of the counted depth: the counter value if
it does not exceed `maxtoclvl`, else `maxtoclvl`. -/
def _toclevels (count maxtoclvl : Int) : Int :=
  if count > maxtoclvl then maxtoclvl else count

/-- The `.hhc` lookup of `CHM._topics()`: the first entry whose lower-cased
name ends in `.hhc`. -/
def topicsFind (entries : List Bytes) : Option Bytes :=
  entries.find? (fun e => List.isSuffixOf ".hhc".data (lowerS e))

/-! ## Image resolution (`CHM._image_files`) -/

/-- `_image_files` runs `re.search(image_url, entry.lower())` with the raw
image url as the pattern.  The embedding covers patterns built from
literal characters and the metacharacter `.` (matches any single
character); for such patterns `re.search` is wildcard substring search.
`patMatchAt` matches the pattern at the head of the text. -/
def patMatchAt : Bytes → Bytes → Bool
  | [], _ => true
  | _ :: _, [] => false
  | p :: ps, c :: cs => (decide (p = '.') || decide (p = c)) && patMatchAt ps cs

/-- `re.search(pat, text)` for a literal-or-dot pattern: does it match at
some position? -/
def reSearch (pat : Bytes) (text : Bytes) : Bool :=
  match text with
  | [] => patMatchAt pat []
  | c :: cs => patMatchAt pat (c :: cs) || reSearch pat cs

/-- `key in out` on the Python dict, modelled as an insertion-ordered
association list. -/
def dictMem (out : List (Bytes × Bytes)) (k : Bytes) : Bool :=
  out.any (fun p => decide (p.1 = k))

/-- `out.update({k: v})`: overwrite in place, or append. -/
def dictUpdate (out : List (Bytes × Bytes)) (k v : Bytes) : List (Bytes × Bytes) :=
  if dictMem out k then out.map (fun p => if p.1 = k then (k, v) else p)
  else out ++ [(k, v)]

/-- The inner loop body of `_image_files`: claim `entry` for `image_url`
when the lower-cased entry matches the url and its lower-cased form is not
yet a key. -/
def imageFilesStep (url : Bytes) (out : List (Bytes × Bytes)) (e : Bytes) :
    List (Bytes × Bytes) :=
  if reSearch url (lowerS e) && !dictMem out (lowerS e) then dictUpdate out e url
  else out

def imageFilesLoop (entries : List Bytes) (url : Bytes)
    (out : List (Bytes × Bytes)) : List (Bytes × Bytes) :=
  entries.foldl (imageFilesStep url) out

/-- `CHM._image_files()`: for every image url in order, scan every entry,
updating the dict keyed by (original-case) entry name. -/
def _image_files (urls entries : List Bytes) : List (Bytes × Bytes) :=
  urls.foldl (fun out url => imageFilesLoop entries url out) []

/-! ## The transformation pipelines of `Entry.correct` and `Entry.get`
as explicit step lists -/

/-- The three per-page transformations the module owns: link lower-casing,
vendor-chrome stripping, restore-framing injection. -/
inductive Step where
  | lower
  | strip
  | inject (name frontpage : Bytes)
deriving DecidableEq

def runStep : Step → Bytes → Bytes
  | Step.lower, d => lower_links d
  | Step.strip, d => stripChrome d
  | Step.inject n f, d => add_restoreframing_js n f d

def runSteps (steps : List Step) (d : Bytes) : Bytes :=
  steps.foldl (fun acc s => runStep s acc) d

/-- The steps `Entry.correct` applies to an html page. -/
def correctSteps (fc : Bool) : List Step :=
  (if fc then [Step.lower] else []) ++ [Step.strip]

/-- The steps `Entry.get` applies to an html page. -/
def getSteps (fc rf : Bool) (name frontpage : Bytes) : List Step :=
  (if fc then [Step.lower] else []) ++
    (if rf then [Step.inject name frontpage] else [])

/-! ## The CHM orchestrator: per-handle state and cached operations

Each Python method `CHM.x()` with the memo pattern
`if "x" not in self.cache: self.cache["x"] = self._x(); return
self.cache["x"]` becomes a state-passing function
`CHM.x : CHMState → Except String V × CHMState`; exceptions raised by the
computation propagate without storing anything. -/

/-- The configuration record `exec`-loaded into the object's namespace
from the config file (externally supplied). -/
structure Cfg where
  filename_case : Bool
  restore_framing : Bool
  maxtoclvl : Int
  auxes : List Bytes
  templates_listing : List Bytes

/-- The per-handle memo table `self.cache`, one optional slot per logical
operation name.  Only successfully computed values are ever stored. -/
structure Cache where
  entries : Option (List Bytes)
  html_files : Option (List Bytes)
  image_urls : Option (List Bytes)
  image_files : Option (List (Bytes × Bytes))
  topics : Option (Option Bytes)
  deftopic : Option Bytes
  frontpage : Option Bytes
  templates : Option (List Bytes)
  toclevels : Option Int

def Cache.empty : Cache :=
  ⟨none, none, none, none, none, none, none, none, none⟩

/-- One open CHM handle.  `listdir` is the fixed enumeration the source
answers; `topicstree` is the attribute set in `__init__` (the TOC bytes,
or `None` when the archive has no `.hhc` entry). -/
structure CHMState where
  source : Source
  listdir : List Bytes
  topicstree : Option Bytes
  /-- Modelled from the spec: `PageLister` (in `CHMParser.py`, not under
  `src/`) turns TOC markup into the ordered page list; an absent TOC
  yields an empty tree, hence an empty list. -/
  pagelister : Bytes → List Bytes
  /-- Modelled from the spec: `ImageCatcher` (in `CHMParser.py`, not under
  `src/`) extracts the image references of one rendered page. -/
  imagecatcher : Bytes → List Bytes
  /-- Modelled from the spec: `TOCCounter.count` (in `CHMParser.py`, not
  under `src/`), the maximum nesting depth observed in the TOC markup. -/
  toccount : Bytes → Int
  cfg : Cfg
  cache : Cache

/-- The accumulation in `_image_urls`' inner loop:
`if not out.count(u): out.append(u)` for each caught url. -/
def dedupAppend (out : List Bytes) (urls : List Bytes) : List Bytes :=
  urls.foldl (fun o u => if o.contains u then o else o ++ [u]) out

/-- The per-file loop of `CHM._image_urls`: feed each page's `correct()`
output (decoded as latin-1, the identity here) to the catcher,
accumulating urls first-occurrence-first. -/
def collectImageUrls (src : Source) (fc rf : Bool) (catcher : Bytes → List Bytes) :
    List Bytes → List Bytes → Except String (List Bytes)
  | [], out => Except.ok out
  | f :: fs, out =>
    match (Entry.make src f fc rf "index.html".data).correct with
    | Except.error m => Except.error m
    | Except.ok content =>
      collectImageUrls src fc rf catcher fs (dedupAppend out (catcher content))

/-- `os.path.join("/", f)`: `f` itself when absolute, else `/` prepended. -/
def joinRoot (f : Bytes) : Bytes := if f.head? = some '/' then f else '/' :: f

def CHM.entries (st : CHMState) : Except String (List Bytes) × CHMState :=
  match st.cache.entries with
  | some v => (Except.ok v, st)
  | none =>
    (Except.ok st.listdir,
      { st with cache := { st.cache with entries := some st.listdir } })

def CHM.html_files (st : CHMState) : Except String (List Bytes) × CHMState :=
  match st.cache.html_files with
  | some v => (Except.ok v, st)
  | none =>
    let v := match st.topicstree with
      | none => []
      | some t => st.pagelister t
    (Except.ok v,
      { st with cache := { st.cache with html_files := some v } })

def CHM.frontpage (st : CHMState) : Except String Bytes × CHMState :=
  match st.cache.frontpage with
  | some v => (Except.ok v, st)
  | none =>
    match CHM.entries st with
    | (Except.error m, st1) => (Except.error m, st1)
    | (Except.ok ents, st1) =>
      let v := _frontpage ents
      (Except.ok v,
        { st1 with cache := { st1.cache with frontpage := some v } })

def CHM.topics (st : CHMState) : Except String (Option Bytes) × CHMState :=
  match st.cache.topics with
  | some v => (Except.ok v, st)
  | none =>
    match CHM.entries st with
    | (Except.error m, st1) => (Except.error m, st1)
    | (Except.ok ents, st1) =>
      match topicsFind ents with
      | none =>
        (Except.ok none,
          { st1 with cache := { st1.cache with topics := some none } })
      | some e =>
        match CHM.frontpage st1 with
        | (Except.error m, st2) => (Except.error m, st2)
        | (Except.ok fp, st2) =>
          match (Entry.make st2.source e st2.cfg.filename_case
              st2.cfg.restore_framing fp).get with
          | Except.error m => (Except.error m, st2)
          | Except.ok content =>
            (Except.ok (some content),
              { st2 with cache := { st2.cache with topics := some (some content) } })

def CHM.deftopic (st : CHMState) : Except String Bytes × CHMState :=
  match st.cache.deftopic with
  | some v => (Except.ok v, st)
  | none =>
    match CHM.html_files st with
    | (Except.error m, st1) => (Except.error m, st1)
    | (Except.ok files, st1) =>
      match _deftopic files with
      | Except.error m => (Except.error m, st1)
      | Except.ok v =>
        (Except.ok v,
          { st1 with cache := { st1.cache with deftopic := some v } })

def CHM.image_urls (st : CHMState) : Except String (List Bytes) × CHMState :=
  match st.cache.image_urls with
  | some v => (Except.ok v, st)
  | none =>
    match CHM.html_files st with
    | (Except.error m, st1) => (Except.error m, st1)
    | (Except.ok files, st1) =>
      match collectImageUrls st1.source st1.cfg.filename_case
          st1.cfg.restore_framing st1.imagecatcher files [] with
      | Except.error m => (Except.error m, st1)
      | Except.ok v =>
        (Except.ok v,
          { st1 with cache := { st1.cache with image_urls := some v } })

def CHM.image_files (st : CHMState) :
    Except String (List (Bytes × Bytes)) × CHMState :=
  match st.cache.image_files with
  | some v => (Except.ok v, st)
  | none =>
    match CHM.image_urls st with
    | (Except.error m, st1) => (Except.error m, st1)
    | (Except.ok urls, st1) =>
      match CHM.entries st1 with
      | (Except.error m, st2) => (Except.error m, st2)
      | (Except.ok ents, st2) =>
        let v := _image_files urls ents
        (Except.ok v,
          { st2 with cache := { st2.cache with image_files := some v } })

def CHM.templates (st : CHMState) : Except String (List Bytes) × CHMState :=
  match st.cache.templates with
  | some v => (Except.ok v, st)
  | none =>
    match CHM.entries st with
    | (Except.error m, st1) => (Except.error m, st1)
    | (Except.ok ents, st1) =>
      let v := (st1.cfg.templates_listing.map joinRoot).filter
        (fun jf => !ents.contains jf)
      (Except.ok v,
        { st1 with cache := { st1.cache with templates := some v } })

def CHM.toclevels (st : CHMState) : Except String Int × CHMState :=
  match st.cache.toclevels with
  | some v => (Except.ok v, st)
  | none =>
    match st.topicstree with
    | none => (Except.error "AttributeError", st)
    | some t =>
      let v := _toclevels (st.toccount t) st.cfg.maxtoclvl
      (Except.ok v,
        { st with cache := { st.cache with toclevels := some v } })

/-! ## Helper lemmas for the claims -/

theorem extract_entries_nil (auxes : List Bytes) :
    extract_entries auxes [] = ([], none) := rfl

theorem extract_entries_cons (auxes : List Bytes) (e : Bytes) (rest : List Bytes) :
    extract_entries auxes (e :: rest) =
      if auxMatch auxes e then extract_entries auxes rest
      else if PARENT_RE_search e then
        ([], some ("Giving up on malicious name: ".data ++ e))
      else
        (outName e :: (extract_entries auxes rest).1,
          (extract_entries auxes rest).2) := rfl

theorem frontpageLoop_of_notMem {l : List Bytes} {fp : Bytes} (h : fp ∉ l)
    (idx : Nat) : frontpageLoop l fp idx = fp := by
  induction l generalizing idx with
  | nil => rfl
  | cons f rest ih =>
    rw [frontpageLoop, if_neg]
    · exact ih (fun hm => h (List.mem_cons_of_mem f hm)) idx
    · intro hfp
      exact h (hfp ▸ List.mem_cons_self f rest)

/-! ## Claims -/

/-- C6: lower-casing of `href`/`src` attribute values is idempotent:
applying `lower_links` twice to any input yields the same result as
applying it once. -/
theorem C6_lower_links_idempotent (l : Bytes) :
    lower_links (lower_links l) = lower_links l :=
  lower_links_idem l

/-- C5: `toclevels()` equals `min(observed depth, maxtoclvl)` for every
input whose observed depth is nonnegative (in fact for every input). -/
theorem C5_toclevels_min (count maxtoclvl : Int) (h : 0 ≤ count) :
    _toclevels count maxtoclvl = min count maxtoclvl := by
  unfold _toclevels
  rcases le_or_lt count maxtoclvl with hle | hlt
  · rw [if_neg (by omega), min_eq_left hle]
  · rw [if_pos (by omega), min_eq_right (by omega)]

theorem C5_witness : 0 ≤ (5 : Int) ∧ _toclevels 5 3 = min 5 3 :=
  ⟨by decide, C5_toclevels_min 5 3 (by decide)⟩

/-- C10: an archive entry that resolves successfully but whose stored
content has length zero makes `FileSource.get` return the absent marker
(`None`), indistinguishable from a missing entry. -/
theorem C10_filesource_empty_is_absent (archive : Bytes → Option Bytes)
    (name c : Bytes) (h1 : archive name = some c) (h2 : c.length = 0) :
    FileSource.get archive name = none := by
  unfold FileSource.get
  rw [h1]
  show (if c.length = 0 then none else some c : Option Bytes) = none
  rw [if_pos h2]

theorem C10_witness :
    (fun _ : Bytes => some ([] : Bytes)) "x".data = some ([] : Bytes) ∧
    ([] : Bytes).length = 0 ∧
    FileSource.get (fun _ => some []) "x".data = none :=
  ⟨rfl, rfl, C10_filesource_empty_is_absent (fun _ => some []) "x".data [] rfl rfl⟩

/-- C2 (code-bug evidence): reading a missing path through the
directory-backed source raises `FileNotFoundError` from both `Entry.get`
and `Entry.correct` (the claimed zero-length result is only produced by
the archive-backed source, shown in the last two conjuncts). -/
theorem C2_dirsource_missing_raises :
    (Entry.make (Source.dir (fun _ => none) "/d".data) "/missing.html".data
        false false "index.html".data).get = Except.error "FileNotFoundError" ∧
    (Entry.make (Source.dir (fun _ => none) "/d".data) "/missing.html".data
        false false "index.html".data).correct = Except.error "FileNotFoundError" ∧
    (Entry.make (Source.file (fun _ => none)) "/missing.html".data
        false false "index.html".data).get = Except.ok [] ∧
    (Entry.make (Source.file (fun _ => none)) "/missing.html".data
        false false "index.html".data).correct = Except.ok [] :=
  ⟨rfl, rfl, rfl, rfl⟩

/-- C7 counterexample: with entry iteration order `/index2.html`,
`/index.html`, the single scan bumps the frontpage to `/index2.html`
after the collision check for that name has already passed, so the chosen
frontpage collides with an existing entry. -/
theorem C7_counterexample :
    _frontpage ["/index2.html".data, "/index.html".data] = "/index2.html".data ∧
    "/index2.html".data ∈ ["/index2.html".data, "/index.html".data] := by
  constructor
  · decide
  · decide

/-- C7 amended: the collision scan is a single pass in entry-iteration
order; when `/index.html` is scanned and no later entry is `/index2.html`,
the frontpage becomes `/index2.html`; when `/index2.html` is also scanned
afterwards and no later entry is `/index3.html`, it becomes `/index3.html`.
The chosen name only avoids entries scanned after each rename (an entry
earlier in iteration order can still collide, as the counterexample
shows). -/
theorem C7_amended :
    (∀ rest : List Bytes, "/index2.html".data ∉ rest →
      _frontpage ("/index.html".data :: rest) = "/index2.html".data) ∧
    (∀ rest : List Bytes, "/index3.html".data ∉ rest →
      _frontpage ("/index.html".data :: "/index2.html".data :: rest) =
        "/index3.html".data) := by
  have e2 : "/index".data ++ (Nat.repr 2).data ++ ".html".data =
      "/index2.html".data := by decide
  have e3 : "/index".data ++ (Nat.repr 3).data ++ ".html".data =
      "/index3.html".data := by decide
  constructor
  · intro rest h
    unfold _frontpage
    rw [frontpageLoop, if_pos rfl, e2]
    exact frontpageLoop_of_notMem h 3
  · intro rest h
    unfold _frontpage
    rw [frontpageLoop, if_pos rfl, e2, frontpageLoop, if_pos rfl, e3]
    exact frontpageLoop_of_notMem h 4

theorem C7_amended_witness :
    "/index2.html".data ∉ ["/a.html".data] ∧
    _frontpage ("/index.html".data :: ["/a.html".data]) = "/index2.html".data :=
  ⟨by decide, C7_amended.1 ["/a.html".data] (by decide)⟩

/-- C1 counterexample: an entry with a parent-traversal segment that also
matches the auxiliary-file pattern is silently skipped (no abort), and a
later entry in the batch is still written. -/
theorem C1_counterexample :
    PARENT_RE_search "/#SYSTEM/../x".data = true ∧
    extract_entries ["/#SYSTEM".data] ["/#SYSTEM/../x".data, "/B.html".data] =
      (["b.html".data], none) := by
  constructor
  · decide
  · decide

/-- C1 amended: extraction aborts with the `RuntimeError` message at the
first traversal entry that does **not** match the auxiliary pattern:
everything before it that is non-auxiliary is written, nothing at or after
it is, and the error names that entry.  (A traversal entry matching the
auxiliary pattern is silently skipped instead, as the counterexample
shows.) -/
theorem C1_amended (auxes : List Bytes) (pre post : List Bytes) (e : Bytes)
    (h1 : PARENT_RE_search e = true) (h2 : auxMatch auxes e = false)
    (h3 : ∀ x ∈ pre, auxMatch auxes x = true ∨ PARENT_RE_search x = false) :
    extract_entries auxes (pre ++ e :: post) =
      ((pre.filter (fun x => !auxMatch auxes x)).map outName,
        some ("Giving up on malicious name: ".data ++ e)) := by
  induction pre with
  | nil =>
    rw [List.nil_append, extract_entries_cons, if_neg (by simp [h2]), if_pos h1]
    simp
  | cons x pre ih =>
    have hx := h3 x (List.mem_cons_self x pre)
    have ih2 := ih (fun y hy => h3 y (List.mem_cons_of_mem x hy))
    by_cases hax : auxMatch auxes x = true
    · rw [List.cons_append, extract_entries_cons, if_pos hax, ih2,
        List.filter_cons]
      simp [hax]
    · have hpx : PARENT_RE_search x = false := by
        rcases hx with hx | hx
        · exact absurd hx hax
        · exact hx
      rw [List.cons_append, extract_entries_cons, if_neg hax,
        if_neg (by simp [hpx]), ih2, List.filter_cons]
      simp [hax]

theorem C1_amended_witness :
    PARENT_RE_search "/../x".data = true ∧
    auxMatch ["/#".data] "/../x".data = false ∧
    (∀ x ∈ ["/#A".data, "/Ok.html".data],
      auxMatch ["/#".data] x = true ∨ PARENT_RE_search x = false) ∧
    extract_entries ["/#".data]
        (["/#A".data, "/Ok.html".data] ++ "/../x".data :: ["/later.html".data]) =
      ((["/#A".data, "/Ok.html".data].filter
          (fun x => !auxMatch ["/#".data] x)).map outName,
        some ("Giving up on malicious name: ".data ++ "/../x".data)) :=
  ⟨by decide, by decide, by decide,
    C1_amended ["/#".data] ["/#A".data, "/Ok.html".data] ["/later.html".data]
      "/../x".data (by decide) (by decide) (by decide)⟩

/-- C4: on the same present html content, `Entry.correct` runs exactly the
pipeline `correctSteps` (optional link lower-casing, then chrome
stripping), which contains no framing-injection step for any flags, and
`Entry.get` runs exactly the pipeline `getSteps` (optional link
lower-casing, then optional framing injection), which contains no
chrome-stripping step: the two transformations are mutually exclusive. -/
theorem C4_correct_get_mutually_exclusive (fc rf : Bool) (name fp d : Bytes)
    (src : Source) (hhtml : isHtmlName name = true)
    (hread : (Entry.make src name fc rf fp).read = Except.ok (some d)) :
    (Entry.make src name fc rf fp).correct =
        Except.ok (runSteps (correctSteps fc) d) ∧
    (∀ n f, Step.inject n f ∉ correctSteps fc) ∧
    (Entry.make src name fc rf fp).get =
        Except.ok (runSteps (getSteps fc rf (name.drop 1) (basename fp)) d) ∧
    Step.strip ∉ getSteps fc rf (name.drop 1) (basename fp) := by
  refine ⟨?_, ?_, ?_, ?_⟩
  · unfold Entry.correct
    rw [hread]
    show Except.ok
        (if isHtmlName name then stripChrome (if fc then lower_links d else d)
         else d) = _
    rw [if_pos hhtml]
    cases fc <;> rfl
  · intro n f
    cases fc <;> simp [correctSteps]
  · unfold Entry.get
    rw [hread]
    show Except.ok
        (if isHtmlName name then
          (let d1 := if fc then lower_links d else d
           if rf then add_restoreframing_js (name.drop 1) (basename fp) d1
           else d1)
         else d) = _
    rw [if_pos hhtml]
    cases fc <;> cases rf <;> rfl
  · cases fc <;> cases rf <;> simp [getSteps]

theorem C4_witness :
    isHtmlName "/p.html".data = true ∧
    (Entry.make (Source.file (fun _ => some "<body>X".data)) "/p.html".data
        true true "index.html".data).read = Except.ok (some "<body>X".data) ∧
    ((Entry.make (Source.file (fun _ => some "<body>X".data)) "/p.html".data
        true true "index.html".data).correct =
        Except.ok (runSteps (correctSteps true) "<body>X".data) ∧
      (∀ n f, Step.inject n f ∉ correctSteps true) ∧
      (Entry.make (Source.file (fun _ => some "<body>X".data)) "/p.html".data
        true true "index.html".data).get =
        Except.ok (runSteps (getSteps true true ("/p.html".data.drop 1)
          (basename "index.html".data)) "<body>X".data) ∧
      Step.strip ∉ getSteps true true ("/p.html".data.drop 1)
        (basename "index.html".data)) :=
  ⟨by decide, rfl,
    C4_correct_get_mutually_exclusive true true "/p.html".data
      "index.html".data "<body>X".data
      (Source.file (fun _ => some "<body>X".data)) (by decide) rfl⟩

/-- A handle on an archive with no `.hhc` entry: `topicstree` is `None`
(as `__init__` leaves it), the spec-modelled page lister yields no pages. -/
def noTocState : CHMState :=
  { source := Source.file (fun _ => some "x".data)
    listdir := ["/a.html".data]
    topicstree := none
    pagelister := fun _ => []
    imagecatcher := fun _ => []
    toccount := fun _ => 0
    cfg := { filename_case := false, restore_framing := false, maxtoclvl := 2,
             auxes := [], templates_listing := [] }
    cache := Cache.empty }

/-- C8 counterexample: on an archive with no TOC entry (`topicsFind` finds
no `.hhc`), the page list is empty and `deftopic()` raises `IndexError`
from `html_files()[0]` instead of succeeding; `frontpage()` itself still
succeeds. -/
theorem C8_counterexample :
    topicsFind noTocState.listdir = none ∧
    CHM.deftopic noTocState =
      (Except.error "IndexError: list index out of range",
        { noTocState with
            cache := { noTocState.cache with html_files := some [] } }) ∧
    (CHM.frontpage noTocState).1 = Except.ok "/index.html".data := by
  refine ⟨by decide, rfl, rfl⟩

/-- C8 amended: with no TOC entry the page list is empty; `frontpage()` is
completely independent of the TOC (its result never changes when
`topicstree` changes), but `deftopic()` succeeds exactly when the page
list is non-empty — on a TOC-less archive it raises `IndexError`, so
extraction through the templates does not complete. -/
theorem C8_amended :
    (∀ (st : CHMState) (t : Option Bytes),
      (CHM.frontpage { st with topicstree := t }).1 = (CHM.frontpage st).1) ∧
    (∀ files : List Bytes,
      (∃ v, _deftopic files = Except.ok v) ↔ files ≠ []) := by
  constructor
  · intro st t
    obtain ⟨src, ld, tt, pl, ic, tc, cfg, ca⟩ := st
    obtain ⟨ce, chf, ciu, cif, ct, cd, cf, ctp, ctl⟩ := ca
    cases cf <;> cases ce <;> rfl
  · intro files
    cases files with
    | nil => simp [_deftopic]
    | cons f rest => simp [_deftopic]

/-! ### Lemmas about `_image_files` (C3) -/

theorem dictMem_of_mem {out : List (Bytes × Bytes)} {e u : Bytes}
    (h : (e, u) ∈ out) : dictMem out e = true := by
  unfold dictMem
  rw [List.any_eq_true]
  exact ⟨(e, u), h, by simp⟩

theorem mem_dictUpdate_of_ne {out : List (Bytes × Bytes)} {e u k v : Bytes}
    (h : (e, u) ∈ out) (hne : e ≠ k) : (e, u) ∈ dictUpdate out k v := by
  unfold dictUpdate
  split
  · apply List.mem_map_of_mem (fun p => if p.1 = k then (k, v) else p) at h
    simpa [hne] using h
  · exact List.mem_append_left _ h

theorem dictMem_dictUpdate_of_ne {out : List (Bytes × Bytes)} {kk k v : Bytes}
    (h : dictMem out kk = false) (hne : k ≠ kk) :
    dictMem (dictUpdate out k v) kk = false := by
  unfold dictUpdate
  unfold dictMem at h ⊢
  split
  · rw [List.any_eq_false] at h ⊢
    intro q hq
    rw [List.mem_map] at hq
    obtain ⟨p, hp, hfp⟩ := hq
    by_cases hpk : p.1 = k
    · rw [if_pos hpk] at hfp
      subst hfp
      simpa using hne
    · rw [if_neg hpk] at hfp
      subst hfp
      exact h p hp
  · rw [List.any_eq_false] at h ⊢
    intro q hq
    rcases List.mem_append.mp hq with hq | hq
    · exact h q hq
    · simp only [List.mem_singleton] at hq
      subst hq
      simpa using hne

theorem lowerS_fixed_chars {x : Bytes} (h : lowerS x = x) :
    ∀ c ∈ x, lowerC c = c := by
  induction x with
  | nil => intro c hc; cases hc
  | cons a l ih =>
    unfold lowerS at h ih
    rw [List.map_cons] at h
    injection h with h1 h2
    intro c hc
    rcases List.mem_cons.mp hc with hh | hh
    · subst hh; exact h1
    · exact ih h2 c hh

theorem mem_imageFilesStep {out : List (Bytes × Bytes)} {e u url x : Bytes}
    (h : (e, u) ∈ out) (hel : lowerS e = e) (hxl : lowerS x = x) :
    (e, u) ∈ imageFilesStep url out x := by
  unfold imageFilesStep
  split
  · next hg =>
    have hxe : x ≠ e := by
      intro hxe
      subst hxe
      rw [hxl, dictMem_of_mem h] at hg
      simp at hg
    exact mem_dictUpdate_of_ne h (fun hh => hxe hh.symm)
  · exact h

theorem mem_imageFilesLoop {entries : List Bytes} {out : List (Bytes × Bytes)}
    {e u url : Bytes} (h : (e, u) ∈ out) (hel : lowerS e = e)
    (hent : ∀ x ∈ entries, lowerS x = x) :
    (e, u) ∈ imageFilesLoop entries url out := by
  unfold imageFilesLoop
  induction entries generalizing out with
  | nil => exact h
  | cons x rest ih =>
    rw [List.foldl_cons]
    exact ih (mem_imageFilesStep h hel (hent x (List.mem_cons_self x rest)))
      (fun y hy => hent y (List.mem_cons_of_mem x hy))

theorem dictMem_imageFilesLoop_of_noMatch {entries : List Bytes}
    {out : List (Bytes × Bytes)} {e url : Bytes}
    (hm : reSearch url e = false) (h : dictMem out e = false)
    (hel : lowerS e = e) (hent : ∀ x ∈ entries, lowerS x = x) :
    dictMem (imageFilesLoop entries url out) e = false := by
  unfold imageFilesLoop
  induction entries generalizing out with
  | nil => exact h
  | cons x rest ih =>
    rw [List.foldl_cons]
    apply ih
    · unfold imageFilesStep
      split
      · next hg =>
        have hxe : x ≠ e := by
          intro hxe
          subst hxe
          rw [hel, hm] at hg
          simp at hg
        exact dictMem_dictUpdate_of_ne h hxe
      · exact h
    · exact fun y hy => hent y (List.mem_cons_of_mem x hy)

theorem mem_imageFilesLoop_of_match {entries : List Bytes}
    {out : List (Bytes × Bytes)} {e url : Bytes}
    (hm : reSearch url e = true) (hmem : e ∈ entries)
    (h : dictMem out e = false) (hent : ∀ x ∈ entries, lowerS x = x) :
    (e, url) ∈ imageFilesLoop entries url out := by
  induction entries generalizing out with
  | nil => cases hmem
  | cons x rest ih =>
    have hel : lowerS e = e := hent e hmem
    unfold imageFilesLoop
    rw [List.foldl_cons]
    by_cases hxe : x = e
    · subst hxe
      have hstep : (x, url) ∈ imageFilesStep url out x := by
        unfold imageFilesStep
        rw [if_pos (by rw [hel, hm, h]; rfl)]
        unfold dictUpdate
        rw [if_neg (by rw [h]; simp)]
        exact List.mem_append_right _ (List.mem_singleton.mpr rfl)
      exact mem_imageFilesLoop hstep hel
        (fun y hy => hent y (List.mem_cons_of_mem x hy))
    · have hmem2 : e ∈ rest := by
        rcases List.mem_cons.mp hmem with hh | hh
        · exact absurd hh.symm hxe
        · exact hh
      apply ih hmem2 ?_ (fun y hy => hent y (List.mem_cons_of_mem x hy))
      unfold imageFilesStep
      split
      · next hg =>
        exact dictMem_dictUpdate_of_ne h hxe
      · exact h

theorem mem_imageFiles_fold {urls entries : List Bytes}
    {out : List (Bytes × Bytes)} {e u : Bytes}
    (h : (e, u) ∈ out) (hel : lowerS e = e)
    (hent : ∀ x ∈ entries, lowerS x = x) :
    (e, u) ∈ urls.foldl (fun o url => imageFilesLoop entries url o) out := by
  induction urls generalizing out with
  | nil => exact h
  | cons u1 urest ih =>
    rw [List.foldl_cons]
    exact ih (mem_imageFilesLoop h hel hent)

theorem mem_imageFiles_of_find {entries : List Bytes} {e u : Bytes} :
    ∀ (urls : List Bytes) (out : List (Bytes × Bytes)),
    (∀ x ∈ entries, lowerS x = x) → e ∈ entries →
    urls.find? (fun v => reSearch v e) = some u → dictMem out e = false →
    (e, u) ∈ urls.foldl (fun o url => imageFilesLoop entries url o) out := by
  intro urls
  induction urls with
  | nil => intro out _ _ hf; cases hf
  | cons u1 urest ih =>
    intro out hent hmem hf hdm
    have hel : lowerS e = e := hent e hmem
    rw [List.find?_cons] at hf
    rw [List.foldl_cons]
    cases hm : reSearch u1 e with
    | true =>
      rw [hm] at hf
      simp only [Option.some.injEq] at hf
      subst hf
      exact mem_imageFiles_fold
        (mem_imageFilesLoop_of_match hm hmem hdm hent) hel hent
    | false =>
      rw [hm] at hf
      exact ih _ hent hmem hf
        (dictMem_imageFilesLoop_of_noMatch hm hdm hel hent)

theorem patMatchAt_of_upper {u : Bytes} :
    ∀ t : Bytes, (∃ c ∈ u, 65 ≤ c.toNat ∧ c.toNat ≤ 90) →
    (∀ c ∈ t, lowerC c = c) → patMatchAt u t = false := by
  induction u with
  | nil => intro t hex _; simp at hex
  | cons p ps ih =>
    intro t hex ht
    cases t with
    | nil => rfl
    | cons c cs =>
      rcases hex with ⟨q, hq, hqu⟩
      rcases List.mem_cons.mp hq with hh | hh
      · subst hh
        have h1 : ¬(q = '.') := by
          intro hd
          subst hd
          revert hqu
          decide
        have h2 : ¬(q = c) := by
          intro hqc
          have hc := ht c (List.mem_cons_self c cs)
          rw [← hqc, lowerC_eq_self_iff] at hc
          exact hc hqu
        unfold patMatchAt
        simp [h1, h2]
      · unfold patMatchAt
        have := ih cs ⟨q, hh, hqu⟩ (fun y hy => ht y (List.mem_cons_of_mem c hy))
        simp [this]

theorem reSearch_of_upper {u : Bytes}
    (hex : ∃ c ∈ u, 65 ≤ c.toNat ∧ c.toNat ≤ 90) :
    ∀ t : Bytes, (∀ c ∈ t, lowerC c = c) → reSearch u t = false := by
  intro t
  induction t with
  | nil =>
    intro _
    unfold reSearch
    exact patMatchAt_of_upper [] hex (by simp)
  | cons c cs ih =>
    intro ht
    unfold reSearch
    rw [patMatchAt_of_upper (c :: cs) hex ht,
      ih (fun y hy => ht y (List.mem_cons_of_mem c hy))]
    rfl

theorem imageFilesLoop_of_upper {u : Bytes}
    (hex : ∃ c ∈ u, 65 ≤ c.toNat ∧ c.toNat ≤ 90) :
    ∀ (entries : List Bytes) (out : List (Bytes × Bytes)),
    (∀ x ∈ entries, lowerS x = x) → imageFilesLoop entries u out = out := by
  intro entries
  induction entries with
  | nil => intro out _; rfl
  | cons x rest ih =>
    intro out hent
    have hx : lowerS x = x := hent x (List.mem_cons_self x rest)
    have hsx : reSearch u (lowerS x) = false := by
      rw [hx]
      exact reSearch_of_upper hex x (lowerS_fixed_chars hx)
    unfold imageFilesLoop
    rw [List.foldl_cons]
    have hstep : imageFilesStep u out x = out := by
      unfold imageFilesStep
      rw [hsx]
      simp
    rw [hstep]
    exact ih out (fun y hy => hent y (List.mem_cons_of_mem x hy))

/-- C3 counterexample: (i) an upper-case reference resolves to nothing —
only the entry is case-folded, not the reference — so `Pic.PNG` does not
resolve to `/Pics/pic.png`; (ii) one reference claims **every** matching
unclaimed entry, not just the first (there is no `break`), so a second
matching entry is also claimed. -/
theorem C3_counterexample :
    _image_files ["Pic.PNG".data] ["/Pics/pic.png".data] = [] ∧
    _image_files ["pic".data] ["/a/pic.png".data, "/b/pic.png".data] =
      [("/a/pic.png".data, "pic".data), ("/b/pic.png".data, "pic".data)] := by
  constructor
  · decide
  · decide

/-- C3 amended: `image_files` is keyed by entry, not by reference.  For
lower-case entry paths: every entry whose path matches a reference is
claimed, and it is claimed by the **first** reference (in reference order)
that matches it — a single reference may claim many entries.  The match
does not case-fold the reference, so a reference containing an ASCII
upper-case letter matches nothing. -/
theorem C3_amended :
    (∀ (urls entries : List Bytes) (e u : Bytes),
      (∀ x ∈ entries, lowerS x = x) → e ∈ entries →
      urls.find? (fun v => reSearch v e) = some u →
      (e, u) ∈ _image_files urls entries) ∧
    (∀ (u : Bytes) (entries : List Bytes),
      (∃ c ∈ u, 65 ≤ c.toNat ∧ c.toNat ≤ 90) →
      (∀ x ∈ entries, lowerS x = x) →
      _image_files [u] entries = []) := by
  constructor
  · intro urls entries e u hent hmem hf
    exact mem_imageFiles_of_find urls [] hent hmem hf rfl
  · intro u entries hex hent
    unfold _image_files
    rw [List.foldl_cons, List.foldl_nil]
    exact imageFilesLoop_of_upper hex entries [] hent

theorem C3_amended_witness :
    ((∀ x ∈ ["/pics/pic.png".data], lowerS x = x) ∧
      "/pics/pic.png".data ∈ ["/pics/pic.png".data] ∧
      ["pic".data].find? (fun v => reSearch v "/pics/pic.png".data) =
        some "pic".data ∧
      ("/pics/pic.png".data, "pic".data) ∈
        _image_files ["pic".data] ["/pics/pic.png".data]) ∧
    ((∃ c ∈ "PIC".data, 65 ≤ c.toNat ∧ c.toNat ≤ 90) ∧
      _image_files ["PIC".data] ["/pics/pic.png".data] = []) :=
  ⟨⟨by decide, by decide, by decide,
      C3_amended.1 ["pic".data] ["/pics/pic.png".data] "/pics/pic.png".data
        "pic".data (by decide) (by decide) (by decide)⟩,
    ⟨by decide,
      C3_amended.2 "PIC".data ["/pics/pic.png".data] (by decide) (by decide)⟩⟩

/-! ### Lemmas about the cached CHM operations (C9) -/

theorem entries_hit {st : CHMState} {v : List Bytes}
    (h : st.cache.entries = some v) : CHM.entries st = (Except.ok v, st) := by
  unfold CHM.entries
  rw [h]

theorem entries_populate {st : CHMState} {v : List Bytes} {st' : CHMState}
    (h : CHM.entries st = (Except.ok v, st')) : st'.cache.entries = some v := by
  unfold CHM.entries at h
  split at h
  · next w hw =>
    simp only [Prod.mk.injEq, Except.ok.injEq] at h
    obtain ⟨rfl, rfl⟩ := h
    exact hw
  · simp only [Prod.mk.injEq, Except.ok.injEq] at h
    obtain ⟨rfl, rfl⟩ := h
    rfl

theorem html_files_hit {st : CHMState} {v : List Bytes}
    (h : st.cache.html_files = some v) :
    CHM.html_files st = (Except.ok v, st) := by
  unfold CHM.html_files
  rw [h]

theorem html_files_populate {st : CHMState} {v : List Bytes} {st' : CHMState}
    (h : CHM.html_files st = (Except.ok v, st')) :
    st'.cache.html_files = some v := by
  unfold CHM.html_files at h
  split at h
  · next w hw =>
    simp only [Prod.mk.injEq, Except.ok.injEq] at h
    obtain ⟨rfl, rfl⟩ := h
    exact hw
  · simp only [Prod.mk.injEq, Except.ok.injEq] at h
    obtain ⟨rfl, rfl⟩ := h
    rfl

theorem frontpage_hit {st : CHMState} {v : Bytes}
    (h : st.cache.frontpage = some v) :
    CHM.frontpage st = (Except.ok v, st) := by
  unfold CHM.frontpage
  rw [h]

theorem frontpage_populate {st : CHMState} {v : Bytes} {st' : CHMState}
    (h : CHM.frontpage st = (Except.ok v, st')) :
    st'.cache.frontpage = some v := by
  unfold CHM.frontpage at h
  split at h
  · next w hw =>
    simp only [Prod.mk.injEq, Except.ok.injEq] at h
    obtain ⟨rfl, rfl⟩ := h
    exact hw
  · split at h
    · simp at h
    · simp only [Prod.mk.injEq, Except.ok.injEq] at h
      obtain ⟨rfl, rfl⟩ := h
      rfl

theorem topics_hit {st : CHMState} {v : Option Bytes}
    (h : st.cache.topics = some v) : CHM.topics st = (Except.ok v, st) := by
  unfold CHM.topics
  rw [h]

theorem topics_populate {st : CHMState} {v : Option Bytes} {st' : CHMState}
    (h : CHM.topics st = (Except.ok v, st')) : st'.cache.topics = some v := by
  unfold CHM.topics at h
  split at h
  · next w hw =>
    simp only [Prod.mk.injEq, Except.ok.injEq] at h
    obtain ⟨rfl, rfl⟩ := h
    exact hw
  · split at h
    · simp at h
    · split at h
      · simp only [Prod.mk.injEq, Except.ok.injEq] at h
        obtain ⟨rfl, rfl⟩ := h
        rfl
      · split at h
        · simp at h
        · split at h
          · simp at h
          · simp only [Prod.mk.injEq, Except.ok.injEq] at h
            obtain ⟨rfl, rfl⟩ := h
            rfl

theorem deftopic_hit {st : CHMState} {v : Bytes}
    (h : st.cache.deftopic = some v) : CHM.deftopic st = (Except.ok v, st) := by
  unfold CHM.deftopic
  rw [h]

theorem deftopic_populate {st : CHMState} {v : Bytes} {st' : CHMState}
    (h : CHM.deftopic st = (Except.ok v, st')) : st'.cache.deftopic = some v := by
  unfold CHM.deftopic at h
  split at h
  · next w hw =>
    simp only [Prod.mk.injEq, Except.ok.injEq] at h
    obtain ⟨rfl, rfl⟩ := h
    exact hw
  · split at h
    · simp at h
    · split at h
      · simp at h
      · simp only [Prod.mk.injEq, Except.ok.injEq] at h
        obtain ⟨rfl, rfl⟩ := h
        rfl

theorem image_urls_hit {st : CHMState} {v : List Bytes}
    (h : st.cache.image_urls = some v) :
    CHM.image_urls st = (Except.ok v, st) := by
  unfold CHM.image_urls
  rw [h]

theorem image_urls_populate {st : CHMState} {v : List Bytes} {st' : CHMState}
    (h : CHM.image_urls st = (Except.ok v, st')) :
    st'.cache.image_urls = some v := by
  unfold CHM.image_urls at h
  split at h
  · next w hw =>
    simp only [Prod.mk.injEq, Except.ok.injEq] at h
    obtain ⟨rfl, rfl⟩ := h
    exact hw
  · split at h
    · simp at h
    · split at h
      · simp at h
      · simp only [Prod.mk.injEq, Except.ok.injEq] at h
        obtain ⟨rfl, rfl⟩ := h
        rfl

theorem image_files_hit {st : CHMState} {v : List (Bytes × Bytes)}
    (h : st.cache.image_files = some v) :
    CHM.image_files st = (Except.ok v, st) := by
  unfold CHM.image_files
  rw [h]

theorem image_files_populate {st : CHMState} {v : List (Bytes × Bytes)}
    {st' : CHMState} (h : CHM.image_files st = (Except.ok v, st')) :
    st'.cache.image_files = some v := by
  unfold CHM.image_files at h
  split at h
  · next w hw =>
    simp only [Prod.mk.injEq, Except.ok.injEq] at h
    obtain ⟨rfl, rfl⟩ := h
    exact hw
  · split at h
    · simp at h
    · split at h
      · simp at h
      · simp only [Prod.mk.injEq, Except.ok.injEq] at h
        obtain ⟨rfl, rfl⟩ := h
        rfl

theorem templates_hit {st : CHMState} {v : List Bytes}
    (h : st.cache.templates = some v) :
    CHM.templates st = (Except.ok v, st) := by
  unfold CHM.templates
  rw [h]

theorem templates_populate {st : CHMState} {v : List Bytes} {st' : CHMState}
    (h : CHM.templates st = (Except.ok v, st')) :
    st'.cache.templates = some v := by
  unfold CHM.templates at h
  split at h
  · next w hw =>
    simp only [Prod.mk.injEq, Except.ok.injEq] at h
    obtain ⟨rfl, rfl⟩ := h
    exact hw
  · split at h
    · simp at h
    · simp only [Prod.mk.injEq, Except.ok.injEq] at h
      obtain ⟨rfl, rfl⟩ := h
      rfl

theorem toclevels_hit {st : CHMState} {v : Int}
    (h : st.cache.toclevels = some v) :
    CHM.toclevels st = (Except.ok v, st) := by
  unfold CHM.toclevels
  rw [h]

theorem toclevels_populate {st : CHMState} {v : Int} {st' : CHMState}
    (h : CHM.toclevels st = (Except.ok v, st')) :
    st'.cache.toclevels = some v := by
  unfold CHM.toclevels at h
  split at h
  · next w hw =>
    simp only [Prod.mk.injEq, Except.ok.injEq] at h
    obtain ⟨rfl, rfl⟩ := h
    exact hw
  · split at h
    · simp at h
    · simp only [Prod.mk.injEq, Except.ok.injEq] at h
      obtain ⟨rfl, rfl⟩ := h
      rfl

/-- C9 counterexample: on a handle whose archive has no TOC,
`toclevels()` raises `AttributeError` (from `None.decode`) and leaves its
cache slot empty — the first call does **not** populate the cache, and
the unchanged state shows every later call re-runs the computation. -/
theorem C9_counterexample :
    CHM.toclevels noTocState = (Except.error "AttributeError", noTocState) ∧
    ((CHM.toclevels noTocState).2).cache.toclevels = none :=
  ⟨rfl, rfl⟩

/-- C9 amended: for each of the nine cached operations, a **successful**
first call stores its value in the handle's cache slot, and calling the
operation again on the resulting handle returns the stored value with the
handle unchanged (never recomputed, never expired).  A failing
computation, by contrast, leaves the slot unpopulated and is re-run on
every call (see the counterexample). -/
theorem C9_amended :
    (∀ (st : CHMState) (v : List Bytes) (st' : CHMState),
      CHM.entries st = (Except.ok v, st') →
      st'.cache.entries = some v ∧ CHM.entries st' = (Except.ok v, st')) ∧
    (∀ (st : CHMState) (v : List Bytes) (st' : CHMState),
      CHM.html_files st = (Except.ok v, st') →
      st'.cache.html_files = some v ∧ CHM.html_files st' = (Except.ok v, st')) ∧
    (∀ (st : CHMState) (v : List Bytes) (st' : CHMState),
      CHM.image_urls st = (Except.ok v, st') →
      st'.cache.image_urls = some v ∧ CHM.image_urls st' = (Except.ok v, st')) ∧
    (∀ (st : CHMState) (v : List (Bytes × Bytes)) (st' : CHMState),
      CHM.image_files st = (Except.ok v, st') →
      st'.cache.image_files = some v ∧ CHM.image_files st' = (Except.ok v, st')) ∧
    (∀ (st : CHMState) (v : Option Bytes) (st' : CHMState),
      CHM.topics st = (Except.ok v, st') →
      st'.cache.topics = some v ∧ CHM.topics st' = (Except.ok v, st')) ∧
    (∀ (st : CHMState) (v : Bytes) (st' : CHMState),
      CHM.deftopic st = (Except.ok v, st') →
      st'.cache.deftopic = some v ∧ CHM.deftopic st' = (Except.ok v, st')) ∧
    (∀ (st : CHMState) (v : Bytes) (st' : CHMState),
      CHM.frontpage st = (Except.ok v, st') →
      st'.cache.frontpage = some v ∧ CHM.frontpage st' = (Except.ok v, st')) ∧
    (∀ (st : CHMState) (v : List Bytes) (st' : CHMState),
      CHM.templates st = (Except.ok v, st') →
      st'.cache.templates = some v ∧ CHM.templates st' = (Except.ok v, st')) ∧
    (∀ (st : CHMState) (v : Int) (st' : CHMState),
      CHM.toclevels st = (Except.ok v, st') →
      st'.cache.toclevels = some v ∧ CHM.toclevels st' = (Except.ok v, st')) := by
  refine ⟨?_, ?_, ?_, ?_, ?_, ?_, ?_, ?_, ?_⟩ <;> intro st v st' h
  · exact ⟨entries_populate h, entries_hit (entries_populate h)⟩
  · exact ⟨html_files_populate h, html_files_hit (html_files_populate h)⟩
  · exact ⟨image_urls_populate h, image_urls_hit (image_urls_populate h)⟩
  · exact ⟨image_files_populate h, image_files_hit (image_files_populate h)⟩
  · exact ⟨topics_populate h, topics_hit (topics_populate h)⟩
  · exact ⟨deftopic_populate h, deftopic_hit (deftopic_populate h)⟩
  · exact ⟨frontpage_populate h, frontpage_hit (frontpage_populate h)⟩
  · exact ⟨templates_populate h, templates_hit (templates_populate h)⟩
  · exact ⟨toclevels_populate h, toclevels_hit (toclevels_populate h)⟩

/-- A handle on which every cached operation succeeds at first call. -/
def okState : CHMState :=
  { source := Source.file (fun _ => some "x".data)
    listdir := ["/a.hhc".data, "/b.html".data]
    topicstree := some "t".data
    pagelister := fun _ => ["/b.html".data]
    imagecatcher := fun _ => []
    toccount := fun _ => 1
    cfg := { filename_case := false, restore_framing := false, maxtoclvl := 2,
             auxes := [], templates_listing := [] }
    cache := Cache.empty }

def entriesVal : List Bytes := ["/a.hhc".data, "/b.html".data]

def pagesVal : List Bytes := ["/b.html".data]

/-- The states after a first successful call of each operation on
`okState` (cache fields in declaration order: entries, html_files,
image_urls, image_files, topics, deftopic, frontpage, templates,
toclevels). -/
def stE : CHMState :=
  { okState with cache :=
    ⟨some entriesVal, none, none, none, none, none, none, none, none⟩ }

def stHF : CHMState :=
  { okState with cache :=
    ⟨none, some pagesVal, none, none, none, none, none, none, none⟩ }

def stIU : CHMState :=
  { okState with cache :=
    ⟨none, some pagesVal, some [], none, none, none, none, none, none⟩ }

def stIF : CHMState :=
  { okState with cache :=
    ⟨some entriesVal, some pagesVal, some [], some [], none, none, none, none, none⟩ }

def stTP : CHMState :=
  { okState with cache :=
    ⟨some entriesVal, none, none, none, some (some "x".data), none,
      some "/index.html".data, none, none⟩ }

def stDT : CHMState :=
  { okState with cache :=
    ⟨none, some pagesVal, none, none, none, some "b.html".data, none, none, none⟩ }

def stFP : CHMState :=
  { okState with cache :=
    ⟨some entriesVal, none, none, none, none, none, some "/index.html".data,
      none, none⟩ }

def stTM : CHMState :=
  { okState with cache :=
    ⟨some entriesVal, none, none, none, none, none, none, some [], none⟩ }

def stTL : CHMState :=
  { okState with cache :=
    ⟨none, none, none, none, none, none, none, none, some 1⟩ }

theorem C9_amended_witness :
    (CHM.entries okState = (Except.ok entriesVal, stE) ∧
      stE.cache.entries = some entriesVal ∧
      CHM.entries stE = (Except.ok entriesVal, stE)) ∧
    (CHM.html_files okState = (Except.ok pagesVal, stHF) ∧
      stHF.cache.html_files = some pagesVal ∧
      CHM.html_files stHF = (Except.ok pagesVal, stHF)) ∧
    (CHM.image_urls okState = (Except.ok [], stIU) ∧
      stIU.cache.image_urls = some [] ∧
      CHM.image_urls stIU = (Except.ok [], stIU)) ∧
    (CHM.image_files okState = (Except.ok [], stIF) ∧
      stIF.cache.image_files = some [] ∧
      CHM.image_files stIF = (Except.ok [], stIF)) ∧
    (CHM.topics okState = (Except.ok (some "x".data), stTP) ∧
      stTP.cache.topics = some (some "x".data) ∧
      CHM.topics stTP = (Except.ok (some "x".data), stTP)) ∧
    (CHM.deftopic okState = (Except.ok "b.html".data, stDT) ∧
      stDT.cache.deftopic = some "b.html".data ∧
      CHM.deftopic stDT = (Except.ok "b.html".data, stDT)) ∧
    (CHM.frontpage okState = (Except.ok "/index.html".data, stFP) ∧
      stFP.cache.frontpage = some "/index.html".data ∧
      CHM.frontpage stFP = (Except.ok "/index.html".data, stFP)) ∧
    (CHM.templates okState = (Except.ok [], stTM) ∧
      stTM.cache.templates = some [] ∧
      CHM.templates stTM = (Except.ok [], stTM)) ∧
    (CHM.toclevels okState = (Except.ok 1, stTL) ∧
      stTL.cache.toclevels = some 1 ∧
      CHM.toclevels stTL = (Except.ok 1, stTL)) :=
  ⟨⟨rfl, (C9_amended.1 okState entriesVal stE rfl).1,
      (C9_amended.1 okState entriesVal stE rfl).2⟩,
    ⟨rfl, (C9_amended.2.1 okState pagesVal stHF rfl).1,
      (C9_amended.2.1 okState pagesVal stHF rfl).2⟩,
    ⟨rfl, (C9_amended.2.2.1 okState [] stIU rfl).1,
      (C9_amended.2.2.1 okState [] stIU rfl).2⟩,
    ⟨rfl, (C9_amended.2.2.2.1 okState [] stIF rfl).1,
      (C9_amended.2.2.2.1 okState [] stIF rfl).2⟩,
    ⟨rfl, (C9_amended.2.2.2.2.1 okState (some "x".data) stTP rfl).1,
      (C9_amended.2.2.2.2.1 okState (some "x".data) stTP rfl).2⟩,
    ⟨rfl, (C9_amended.2.2.2.2.2.1 okState "b.html".data stDT rfl).1,
      (C9_amended.2.2.2.2.2.1 okState "b.html".data stDT rfl).2⟩,
    ⟨rfl, (C9_amended.2.2.2.2.2.2.1 okState "/index.html".data stFP rfl).1,
      (C9_amended.2.2.2.2.2.2.1 okState "/index.html".data stFP rfl).2⟩,
    ⟨rfl, (C9_amended.2.2.2.2.2.2.2.1 okState [] stTM rfl).1,
      (C9_amended.2.2.2.2.2.2.2.1 okState [] stTM rfl).2⟩,
    ⟨rfl, (C9_amended.2.2.2.2.2.2.2.2 okState 1 stTL rfl).1,
      (C9_amended.2.2.2.2.2.2.2.2 okState 1 stTL rfl).2⟩⟩

end Archmage
